import Mathlib

/-!
# Verification of the MachineTuring repository core

Shallow embedding of the lazy-sequence / tape / transition-table /
execution-engine core of the repository (files `LazySeq.h`, `Mem.h`,
`Gen.h`, `TuringStrip.h`, `TransitionManager.h`, `StateManager.h`,
`HeadManager.h`, `StatisticsManager.h`, `MT.h`) and proofs of the spec
claims about it.

Conventions of the embedding:
* `std::optional` / C++ exceptions used as exhaustion signals become `Option`;
  a generator call that would throw is a call returning `none`.
* The `ArraySeqMem` cache (a gap-free growable array) becomes a `List`.
* `std::unordered_map` becomes an association list (for the transition
  table, whose size is observable) or a plain function `Int → Option _`
  (for the tape's modification overlay).
* Mutation of a component becomes returning the updated component;
  `const`-but-`mutable` materialization in reads makes reads return the
  value together with the updated state.
* `size_t` arithmetic stays in `Nat`; `std::numeric_limits<size_t>::max()`
  (the default `max_len` of `LazySeq`) is the constant `INF = 2 ^ 64 - 1`
  of the 64-bit platform the code targets.  Signed `int` positions become
  `Int` (no claim exercises `int` overflow).
* The `while` loops are written as structurally recursive functions on an
  explicit iteration bound that equals the loop's own termination measure
  (`i + 1 - materialized_count` for `LazySeq::Get`, `max_steps - step_count + 1`
  for `TuringMachine::Run`), so every definition is executable; theorems
  showing the bound is never the binding constraint accompany the loops.
-/

namespace MachineTuring

/-- The default `max_len` of `LazySeq`: `std::numeric_limits<size_t>::max()`
on the 64-bit platform the code targets. -/
def INF : Nat := 2 ^ 64 - 1

/-- State of `LazySeq<T, Generator, Mem>` (LazySeq.h).  `mem` is the
`ArraySeqMem` cache (`cache_`, a gap-free growable array, here a `List`),
`gen` the generator state, `maxLen` the `max_len_` bound. -/
structure LazySeq (α γ : Type) where
  mem : List α
  gen : γ
  maxLen : Nat
  deriving Repr, DecidableEq

/-- The materialization loop of `LazySeq::Get` (LazySeq.h lines 58-65):
`while (mem_.MaterializedCount() <= i && mem_.MaterializedCount() < max_len_)`
call the generator, append on success, `break` on failure (the generator
throwing).  `next` is the generator's `GetNext` (`none` = throws).  The
result also counts the generator invocations made (including a failing
one).  `fuel` is the loop bound: each iteration either appends one element
(so `i + 1 - mem.length` strictly decreases) or exits, hence starting with
`fuel = i + 1 - mem.length` the `fuel = 0` case is exactly the case where
the loop condition `mem.length ≤ i` is already false. -/
def matLoop (next : γ → Option (α × γ)) :
    Nat → List α → γ → Nat → Nat → Nat → List α × γ × Nat
  | 0, mem, g, _, _, calls => (mem, g, calls)
  | fuel + 1, mem, g, maxLen, i, calls =>
    if mem.length ≤ i ∧ mem.length < maxLen then
      match next g with
      | some (v, g2) => matLoop next fuel (mem ++ [v]) g2 maxLen i (calls + 1)
      | none => (mem, g, calls + 1)
    else
      (mem, g, calls)

/-- Embeds `LazySeq::Get(i)` (LazySeq.h lines 53-68): first probe the memo store
(`mem_.Get(i)`, a hit iff `i < size`); on a miss run the materialization
loop, then re-probe the store.  Returns the looked-up value, the updated
sequence, and the number of generator invocations performed. -/
def LazySeq.get (next : γ → Option (α × γ)) (s : LazySeq α γ) (i : Nat) :
    Option α × LazySeq α γ × Nat :=
  match s.mem[i]? with
  | some v => (some v, s, 0)
  | none =>
    let r := matLoop next (i + 1 - s.mem.length) s.mem s.gen s.maxLen i 0
    (r.1[i]?, ⟨r.1, r.2.1, s.maxLen⟩, r.2.2)

/-- Embeds `LazySeq::MaterializedCount()`. -/
def LazySeq.materializedCount (s : LazySeq α γ) : Nat :=
  s.mem.length

/-- A generator that yields the elements of a list in order and then is
permanently exhausted (throws); used to instantiate theorems about
exhaustible generators such as `FunctionGenerator` (Gen.h). -/
def listGen : List α → Option (α × List α)
  | [] => none
  | x :: xs => some (x, xs)

/-- On a memo-store hit the loop is not entered: the result of `get` is the
cached element, the sequence is unchanged and no generator call is made. -/
theorem LazySeq.get_of_lt_length (next : γ → Option (α × γ)) (s : LazySeq α γ)
    (i : Nat) (h : i < s.mem.length) :
    LazySeq.get next s i = (s.mem[i]?, s, 0) := by
  unfold LazySeq.get
  have hs : s.mem[i]? = some s.mem[i] := List.getElem?_eq_getElem h
  rw [hs]

/-- The value component of `get` is always the updated store's entry at `i`. -/
theorem LazySeq.get_fst_eq (next : γ → Option (α × γ)) (s : LazySeq α γ)
    (i : Nat) :
    (LazySeq.get next s i).1 = (LazySeq.get next s i).2.1.mem[i]? := by
  unfold LazySeq.get
  cases hs : s.mem[i]? with
  | some v => simp [hs]
  | none => simp

/-- The store only grows: a cached entry survives `get`. -/
theorem matLoop_getElem? (next : γ → Option (α × γ)) :
    ∀ (fuel : Nat) (mem : List α) (g : γ) (maxLen i calls j : Nat),
      j < mem.length →
      (matLoop next fuel mem g maxLen i calls).1[j]? = mem[j]? := by
  intro fuel
  induction fuel with
  | zero => intro mem g maxLen i calls j hj; rfl
  | succ fuel ih =>
    intro mem g maxLen i calls j hj
    unfold matLoop
    by_cases hc : mem.length ≤ i ∧ mem.length < maxLen
    · rw [if_pos hc]
      cases hg : next g with
      | some p =>
        obtain ⟨v, g2⟩ := p
        show (matLoop next fuel (mem ++ [v]) g2 maxLen i (calls + 1)).1[j]? = mem[j]?
        have := ih (mem ++ [v]) g2 maxLen i (calls + 1) j
          (by simpa using Nat.lt_succ_of_lt hj)
        rw [this]
        exact List.getElem?_append_left hj
      | none => rfl
    · rw [if_neg hc]

/-- Claim C4: for every LazySequence and every index `i`: if
`i < materialized_count` then `Get(i)` returns the cached element without
invoking the generator; consequently two successive `Get(i)` calls return
equal values and the second call performs no additional generator
invocations. -/
theorem lazySeq_get_memoization (next : γ → Option (α × γ)) :
    (∀ (s : LazySeq α γ) (i : Nat), i < s.mem.length →
      LazySeq.get next s i = (s.mem[i]?, s, 0)) ∧
    (∀ (s : LazySeq α γ) (i : Nat) (v : α) (s1 : LazySeq α γ) (n : Nat),
      LazySeq.get next s i = (some v, s1, n) →
      LazySeq.get next s1 i = (some v, s1, 0)) := by
  refine ⟨fun s i h => LazySeq.get_of_lt_length next s i h, ?_⟩
  intro s i v s1 n h
  have hfst := LazySeq.get_fst_eq next s i
  rw [h] at hfst
  have hmem : s1.mem[i]? = some v := hfst.symm
  obtain ⟨hlt, -⟩ := List.getElem?_eq_some.mp hmem
  rw [LazySeq.get_of_lt_length next s1 i hlt, hmem]

/-- Witness for C4 at concrete inputs: a cached hit at index 1, and a
first/second `Get(0)` pair on a one-element exhaustible generator. -/
theorem lazySeq_get_memoization_witness :
    (1 < (⟨[10, 20], [], 5⟩ : LazySeq Nat (List Nat)).mem.length ∧
      LazySeq.get listGen (⟨[10, 20], [], 5⟩ : LazySeq Nat (List Nat)) 1 =
        (([10, 20] : List Nat)[1]?, ⟨[10, 20], [], 5⟩, 0)) ∧
    (LazySeq.get listGen (⟨[], [7], 5⟩ : LazySeq Nat (List Nat)) 0 =
        (some 7, ⟨[7], [], 5⟩, 1) ∧
      LazySeq.get listGen (⟨[7], [], 5⟩ : LazySeq Nat (List Nat)) 0 =
        (some 7, ⟨[7], [], 5⟩, 0)) :=
  ⟨⟨by decide, (lazySeq_get_memoization listGen).1 ⟨[10, 20], [], 5⟩ 1 (by decide)⟩,
    ⟨by decide, (lazySeq_get_memoization listGen).2 ⟨[], [7], 5⟩ 0 7 ⟨[7], [], 5⟩ 1
      (by decide)⟩⟩

/-- Running the materialization loop against a generator that yields the
elements of `rem` then fails: every success appends exactly one element,
the failing call stops the loop without appending, and the invocation
count is `rem.length` successes plus the one failure. -/
theorem matLoop_listGen (rem : List α) :
    ∀ (mem : List α) (fuel maxLen i calls : Nat),
      mem.length + rem.length ≤ i → mem.length + rem.length < maxLen →
      rem.length + 1 ≤ fuel →
      matLoop listGen fuel mem rem maxLen i calls =
        (mem ++ rem, [], calls + rem.length + 1) := by
  induction rem with
  | nil =>
    intro mem fuel maxLen i calls h1 h2 hf
    obtain ⟨f, rfl⟩ : ∃ f, fuel = f + 1 := ⟨fuel - 1, by omega⟩
    unfold matLoop
    rw [if_pos ⟨by simpa using h1, by simpa using h2⟩]
    simp [listGen]
  | cons x xs ih =>
    intro mem fuel maxLen i calls h1 h2 hf
    obtain ⟨f, rfl⟩ : ∃ f, fuel = f + 1 := ⟨fuel - 1, by omega⟩
    unfold matLoop
    rw [if_pos ⟨by simp at h1 ⊢; omega, by simp at h2 ⊢; omega⟩]
    show matLoop listGen f (mem ++ [x]) xs maxLen i (calls + 1) = _
    rw [ih (mem ++ [x]) f maxLen i (calls + 1)
      (by simp at h1 ⊢; omega) (by simp at h2 ⊢; omega) (by simp at hf ⊢; omega)]
    simp [List.append_assoc]
    omega

/-- Claim C5: `Get(i)` with `i ≥ materialized_count` grows the store one
element per generator call while `materialized_count ≤ i` and
`materialized_count < max_length`; if the generator fails (exhaustion)
mid-growth the loop stops immediately without appending and without
propagating an error, and `Get` returns `none` for the still-unreached
index rather than raising.  Instantiated with the exhaustible generator
`listGen`, which yields `rem`'s elements then fails: the store ends as
`mem ++ rem` (each success appended, nothing appended by the failure),
the generator is called `rem.length + 1` times, and the result is `none`. -/
theorem lazySeq_get_exhaustion_degrades (mem rem : List α) (maxLen i : Nat)
    (h1 : mem.length + rem.length ≤ i) (h2 : mem.length + rem.length < maxLen) :
    LazySeq.get listGen (⟨mem, rem, maxLen⟩ : LazySeq α (List α)) i =
      (none, ⟨mem ++ rem, [], maxLen⟩, rem.length + 1) := by
  unfold LazySeq.get
  have hmiss : mem[i]? = none := List.getElem?_eq_none (by omega)
  rw [hmiss]
  show (_, _, _) = (_, _, _)
  rw [matLoop_listGen rem mem (i + 1 - mem.length) maxLen i 0 h1 h2 (by omega)]
  have hagain : (mem ++ rem)[i]? = none :=
    List.getElem?_eq_none (by simp; omega)
  simp [hagain]

/-- Witness for C5: a two-element exhaustible generator queried at index 7
with room to spare under the length bound. -/
theorem lazySeq_get_exhaustion_degrades_witness :
    ([] : List Nat).length + [4, 5].length ≤ 7 ∧
      ([] : List Nat).length + [4, 5].length < 10 ∧
      LazySeq.get listGen (⟨[], [4, 5], 10⟩ : LazySeq Nat (List Nat)) 7 =
        (none, ⟨[4, 5], [], 10⟩, 3) :=
  ⟨by decide, by decide,
    lazySeq_get_exhaustion_degrades [] [4, 5] 10 7 (by decide) (by decide)⟩

/-- State of `SequenceGenerator<T, Container>` (Gen.h lines 108-142): the
seeded container, the cursor, and the default value returned after the
container is exhausted. -/
structure SequenceGeneratorState (α : Type) where
  data : List α
  currentIndex : Nat
  defaultValue : α
  deriving Repr, DecidableEq

/-- Embeds `SequenceGenerator::GetNext` (Gen.h lines 119-125): the element under
the cursor (advancing it) while in range, the default value afterwards. -/
def SequenceGeneratorState.getNext (g : SequenceGeneratorState α) :
    α × SequenceGeneratorState α :=
  if h : g.currentIndex < g.data.length then
    (g.data.get ⟨g.currentIndex, h⟩, { g with currentIndex := g.currentIndex + 1 })
  else
    (g.defaultValue, g)

/-- Embeds `SequenceGenerator::IsInDataRange` (Gen.h line 141). -/
def SequenceGeneratorState.isInDataRange (g : SequenceGeneratorState α) : Bool :=
  decide (g.currentIndex < g.data.length)

/-- State of `TapeGenerator<T, Container>` (Gen.h lines 148-191): a
sequence generator over the initial data, the constant blank generator
(represented by its constant value), and the `using_sequence_` flag. -/
structure TapeGeneratorState (α : Type) where
  seqGen : SequenceGeneratorState α
  constantValue : α
  usingSequence : Bool
  deriving Repr, DecidableEq

/-- Embeds `TapeGenerator::GetNext` (Gen.h lines 161-168): delegate to the
sequence generator while it is in its data range, otherwise clear
`using_sequence_` and produce the blank symbol. -/
def TapeGeneratorState.getNext (g : TapeGeneratorState α) :
    α × TapeGeneratorState α :=
  if g.usingSequence && g.seqGen.isInDataRange then
    let r := g.seqGen.getNext
    (r.1, { g with seqGen := r.2 })
  else
    (g.constantValue, { g with usingSequence := false })

/-- Embeds `TapeGenerator`'s `GetNext` as a fallible generator step: it never
throws (`HasNext` is always true, Gen.h lines 170-172). -/
def tapeNext (g : TapeGeneratorState α) : Option (α × TapeGeneratorState α) :=
  some g.getNext

/-- The `TapeGenerator` constructed by `TuringStrip` (Gen.h lines 156-159):
sequence over the initial data with the blank as default, blank constant. -/
def mkTapeGen (initialData : List α) (blank : α) : TapeGeneratorState α :=
  ⟨⟨initialData, 0, blank⟩, blank, true⟩

/-- Embeds `TuringStrip<Symbol>` (TuringStrip.h): the base `LazySeq` over a
`TapeGenerator`, the blank symbol, and the modification overlay
(`modifications_`, an `unordered_map<int, Symbol>`, modeled as a function
`Int → Option Symbol`). -/
structure TuringStrip (α : Type) where
  strip : LazySeq α (TapeGeneratorState α)
  blankSymbol : α
  modifications : Int → Option α

/-- The `TuringStrip` constructor (TuringStrip.h lines 32-34): empty memo
store, `TapeGenerator(initial_data, blank_symbol)`, default (unbounded)
`max_len`, empty overlay. -/
def TuringStrip.mkStrip (blank : α) (initialData : List α) : TuringStrip α :=
  { strip := ⟨[], mkTapeGen initialData blank, INF⟩
    blankSymbol := blank
    modifications := fun _ => none }

/-- Embeds `TuringStrip::GetSymbolAt` (TuringStrip.h lines 40-59): overlay first;
then blank for negative positions; then the lazy sequence (which may
materialize, so the updated strip is returned too); blank if the sequence
has no value. -/
def TuringStrip.getSymbolAt (t : TuringStrip α) (position : Int) :
    α × TuringStrip α :=
  match t.modifications position with
  | some v => (v, t)
  | none =>
    if position < 0 then
      (t.blankSymbol, t)
    else
      match LazySeq.get tapeNext t.strip position.toNat with
      | (some v, s2, _) => (v, { t with strip := s2 })
      | (none, s2, _) => (t.blankSymbol, { t with strip := s2 })

/-- Embeds `TuringStrip::SetSymbolAt` (TuringStrip.h lines 66-69): store the
write in the overlay (`modifications_[position] = symbol`). -/
def TuringStrip.setSymbolAt (t : TuringStrip α) (position : Int) (symbol : α) :
    TuringStrip α :=
  { t with modifications := fun q => if q = position then some symbol else t.modifications q }

/-- Embeds `TuringStrip::SetBlankSymbol` (TuringStrip.h lines 106-108): replace
only the `blank_symbol_` field; the base sequence's generator keeps the
construction-time blank. -/
def TuringStrip.setBlankSymbol (t : TuringStrip α) (blank : α) : TuringStrip α :=
  { t with blankSymbol := blank }

/-- Embeds `TuringStrip::GetMaterializedCount` (TuringStrip.h lines 113-115). -/
def TuringStrip.getMaterializedCount (t : TuringStrip α) : Nat :=
  t.strip.materializedCount

/-- Reading leaves the overlay untouched. -/
theorem TuringStrip.getSymbolAt_modifications (t : TuringStrip α) (q : Int) :
    (t.getSymbolAt q).2.modifications = t.modifications := by
  unfold TuringStrip.getSymbolAt
  cases hm : t.modifications q with
  | some v => rfl
  | none =>
    by_cases hq : q < 0
    · rw [if_pos hq]
    · rw [if_neg hq]
      rcases hget : LazySeq.get tapeNext t.strip q.toNat with ⟨f, s2, n⟩
      cases f <;> rfl

/-- Reading leaves the blank symbol untouched. -/
theorem TuringStrip.getSymbolAt_blankSymbol (t : TuringStrip α) (q : Int) :
    (t.getSymbolAt q).2.blankSymbol = t.blankSymbol := by
  unfold TuringStrip.getSymbolAt
  cases hm : t.modifications q with
  | some v => rfl
  | none =>
    by_cases hq : q < 0
    · rw [if_pos hq]
    · rw [if_neg hq]
      rcases hget : LazySeq.get tapeNext t.strip q.toNat with ⟨f, s2, n⟩
      cases f <;> rfl

/-- Claim C3: for every tape, every position `p` (positive, zero, or
negative), and every symbol `s`: after `SetSymbolAt(p, s)` with no
intervening `Reset`, `GetSymbolAt(p)` returns `s` — both immediately
(whatever the base had already materialized, since `t` is arbitrary) and
after any further read at any position `q` (which may materialize the
base further). -/
theorem strip_write_then_read (t : TuringStrip α) (p : Int) (s : α) (q : Int) :
    ((t.setSymbolAt p s).getSymbolAt p).1 = s ∧
    ((((t.setSymbolAt p s).getSymbolAt q).2).getSymbolAt p).1 = s := by
  have hover : ∀ t' : TuringStrip α, t'.modifications p = some s →
      (t'.getSymbolAt p).1 = s := by
    intro t' h
    unfold TuringStrip.getSymbolAt
    rw [h]
  have h1 : (t.setSymbolAt p s).modifications p = some s := by
    unfold TuringStrip.setSymbolAt
    simp
  refine ⟨hover _ h1, hover _ ?_⟩
  rw [TuringStrip.getSymbolAt_modifications]
  exact h1

/-- Claim C8: `SetSymbolAt(p, s)` only inserts or updates the overlay
entry at `p` and never touches the base lazy sequence: the base (hence
its materialized count and every materialized element) is unchanged, the
overlay elsewhere is unchanged, and reads at every position other than
`p` return the same symbol as before the write. -/
theorem strip_write_frame (t : TuringStrip α) (p : Int) (s : α) :
    (t.setSymbolAt p s).strip = t.strip ∧
    (t.setSymbolAt p s).getMaterializedCount = t.getMaterializedCount ∧
    (t.setSymbolAt p s).strip.mem = t.strip.mem ∧
    (t.setSymbolAt p s).modifications p = some s ∧
    (∀ q : Int, q ≠ p → (t.setSymbolAt p s).modifications q = t.modifications q) ∧
    (∀ q : Int, q ≠ p →
      ((t.setSymbolAt p s).getSymbolAt q).1 = (t.getSymbolAt q).1) := by
  have hmods : ∀ q : Int, q ≠ p →
      (t.setSymbolAt p s).modifications q = t.modifications q := by
    intro q hq
    show (if q = p then some s else t.modifications q) = t.modifications q
    exact if_neg hq
  refine ⟨rfl, rfl, rfl, ?_, hmods, ?_⟩
  · show (if p = p then some s else t.modifications p) = some s
    exact if_pos rfl
  intro q hq
  unfold TuringStrip.getSymbolAt
  rw [hmods q hq]
  cases hm : t.modifications q with
  | some v => rfl
  | none =>
    by_cases hql : q < 0
    · simp only [if_pos hql]
      rfl
    · simp only [if_neg hql]
      simp only [TuringStrip.setSymbolAt]
      rcases hget : LazySeq.get tapeNext t.strip q.toNat with ⟨f, s2, n⟩
      cases f <;> rfl

/-- Witness for C8 at a concrete tape: write `7` at position `2`, read at
position `3`. -/
theorem strip_write_frame_witness :
    ((3 : Int) ≠ 2 ∧
      (((TuringStrip.mkStrip 0 [5, 6]).setSymbolAt 2 7).getSymbolAt 3).1 =
        ((TuringStrip.mkStrip 0 [5, 6]).getSymbolAt 3).1) ∧
    ((TuringStrip.mkStrip 0 [5, 6]).setSymbolAt 2 7).strip =
      (TuringStrip.mkStrip 0 [5, 6]).strip :=
  ⟨⟨by decide, (strip_write_frame (TuringStrip.mkStrip 0 [5, 6]) 2 7).2.2.2.2.2 3
      (by decide)⟩,
    (strip_write_frame (TuringStrip.mkStrip 0 [5, 6]) 2 7).1⟩

/-- The symbol the base generator of a fresh tape yields at its `j`-th
call: the `j`-th seeded datum while inside the initial data, the
construction-time blank afterwards. -/
def tapeValue (data : List α) (blank : α) (j : Nat) : α :=
  if h : j < data.length then data.get ⟨j, h⟩ else blank

/-- Shape of a `TapeGenerator` state after `n` calls starting from
`mkTapeGen data blank`: either still inside the data (cursor at `n`), or
switched to the constant generator with the data exhausted. -/
def TapeGenInv (data : List α) (blank : α) (n : Nat)
    (g : TapeGeneratorState α) : Prop :=
  g.constantValue = blank ∧ g.seqGen.data = data ∧ g.seqGen.defaultValue = blank ∧
    ((g.usingSequence = true ∧ g.seqGen.currentIndex = n ∧ n ≤ data.length) ∨
      (g.usingSequence = false ∧ data.length ≤ n))

/-- One generator call under the invariant yields `tapeValue data blank n`
and re-establishes the invariant at `n + 1`. -/
theorem TapeGenInv.getNext (data : List α) (blank : α) (n : Nat)
    (g : TapeGeneratorState α) (h : TapeGenInv data blank n g) :
    g.getNext.1 = tapeValue data blank n ∧
      TapeGenInv data blank (n + 1) g.getNext.2 := by
  obtain ⟨hc, hd, hdef, hcase⟩ := h
  unfold TapeGeneratorState.getNext
  rcases hcase with ⟨hus, hidx, hle⟩ | ⟨hus, hle⟩
  · by_cases hlt : n < data.length
    · have hrange : g.seqGen.isInDataRange = true := by
        unfold SequenceGeneratorState.isInDataRange
        rw [hidx, hd]
        exact decide_eq_true hlt
      rw [hus, hrange]
      simp only [Bool.and_self, if_true]
      unfold SequenceGeneratorState.getNext
      rw [hidx, hd] at *
      simp only [hlt, dif_pos]
      constructor
      · unfold tapeValue
        simp [hlt]
      · exact ⟨hc, rfl, hdef, Or.inl ⟨rfl, rfl, by omega⟩⟩
    · have hrange : g.seqGen.isInDataRange = false := by
        unfold SequenceGeneratorState.isInDataRange
        rw [hidx, hd]
        simpa using hlt
      rw [hus, hrange]
      simp only [Bool.and_false, if_false]
      constructor
      · unfold tapeValue
        simp [hlt, hc]
      · exact ⟨hc, hd, hdef, Or.inr ⟨rfl, by omega⟩⟩
  · rw [hus]
    simp only [Bool.false_and, if_false]
    have hlt : ¬ n < data.length := by omega
    constructor
    · unfold tapeValue
      simp [hlt, hc]
    · exact ⟨hc, hd, hdef, Or.inr ⟨rfl, by omega⟩⟩

/-- Running the materialization loop with exactly enough fuel against a
tape generator fills the store up to index `i` with `tapeValue`s. -/
theorem matLoop_tapeNext (data : List α) (blank : α) :
    ∀ (fuel : Nat) (mem : List α) (g : TapeGeneratorState α)
      (maxLen i calls : Nat),
      TapeGenInv data blank mem.length g →
      (∀ j : Nat, j < mem.length → mem[j]? = some (tapeValue data blank j)) →
      mem.length + fuel = i + 1 → i < maxLen →
      (matLoop tapeNext fuel mem g maxLen i calls).1.length = i + 1 ∧
        ∀ j : Nat, j < i + 1 →
          (matLoop tapeNext fuel mem g maxLen i calls).1[j]? =
            some (tapeValue data blank j) := by
  intro fuel
  induction fuel with
  | zero =>
    intro mem g maxLen i calls hinv hmem hfuel hmax
    unfold matLoop
    constructor
    · show mem.length = i + 1
      omega
    · intro j hj
      show mem[j]? = some (tapeValue data blank j)
      exact hmem j (by omega)
  | succ fuel ih =>
    intro mem g maxLen i calls hinv hmem hfuel hmax
    unfold matLoop
    rw [if_pos ⟨by omega, by omega⟩]
    show ((matLoop tapeNext fuel (mem ++ [g.getNext.1]) g.getNext.2
      maxLen i (calls + 1)).1.length = i + 1) ∧ _
    obtain ⟨hval, hinv2⟩ := TapeGenInv.getNext data blank mem.length g hinv
    have hmem2 : ∀ j : Nat, j < (mem ++ [g.getNext.1]).length →
        (mem ++ [g.getNext.1])[j]? = some (tapeValue data blank j) := by
      intro j hj
      rcases Nat.lt_or_ge j mem.length with hjl | hjg
      · rw [List.getElem?_append_left hjl]
        exact hmem j hjl
      · have hje : j = mem.length := by simp at hj; omega
        subst hje
        rw [List.getElem?_concat_length, hval]
    have hinv2' : TapeGenInv data blank (mem ++ [g.getNext.1]).length g.getNext.2 := by
      simpa using hinv2
    exact ih (mem ++ [g.getNext.1]) g.getNext.2 maxLen i (calls + 1)
      hinv2' hmem2 (by simp; omega) hmax

/-- Writing every position in `ws` in order (`SetSymbolAt` per entry). -/
def TuringStrip.writeAll (t : TuringStrip α) (ws : List (Int × α)) :
    TuringStrip α :=
  ws.foldl (fun t' w => t'.setSymbolAt w.1 w.2) t

/-- A sequence of writes that all avoid `p` leaves the overlay at `p`
empty, and never touches the base or the blank symbol. -/
theorem TuringStrip.writeAll_avoid (p : Int) :
    ∀ (ws : List (Int × α)) (t : TuringStrip α),
      t.modifications p = none → (∀ w ∈ ws, w.1 ≠ p) →
      (t.writeAll ws).modifications p = none ∧
        (t.writeAll ws).strip = t.strip ∧
        (t.writeAll ws).blankSymbol = t.blankSymbol := by
  intro ws
  induction ws with
  | nil => intro t h hw; exact ⟨h, rfl, rfl⟩
  | cons w rest ih =>
    intro t h hw
    have hwp : w.1 ≠ p := hw w (List.mem_cons_self w rest)
    have hset : (t.setSymbolAt w.1 w.2).modifications p = none := by
      show (if p = w.1 then some w.2 else t.modifications p) = none
      rw [if_neg (fun hc => hwp hc.symm)]
      exact h
    have := ih (t.setSymbolAt w.1 w.2) hset
      (fun w' hw' => hw w' (List.mem_cons_of_mem w hw'))
    exact ⟨this.1, this.2.1, this.2.2⟩

/-- Claim C10 as stated fails: on a tape constructed with blank `0` and
initial data `[5]`, after `SetBlankSymbol 2`, position `0` was never
written via `SetSymbolAt`, yet reading it returns the seeded datum `5`,
not the original blank `0` the claim predicts (nor the new blank `2`). -/
theorem strip_setBlank_seeded_counterexample :
    ((((TuringStrip.mkStrip 0 [5]).setBlankSymbol 2).getSymbolAt 0).1 = 5) ∧
      (5 : Nat) ≠ 0 ∧ (5 : Nat) ≠ 2 := by
  decide

/-- Claim C10 (amended): for a tape constructed with blank `b` and seed
`data`, after any writes that avoid position `p` and then
`SetBlankSymbol b'`: a read at `p < 0` returns the new blank `b'`, while
a read at `p ≥ 0` returns what the base generator seeded there — the
datum `data[p]` inside the seed, the construction-time blank `b` beyond
it — so the two untouched halves of a tape seeded only with blanks read
different blank symbols. -/
theorem strip_setBlank_halves (b b' : α) (data : List α)
    (ws : List (Int × α)) (p : Int) (hw : ∀ w ∈ ws, w.1 ≠ p) :
    (p < 0 →
      ((((TuringStrip.mkStrip b data).writeAll ws).setBlankSymbol b').getSymbolAt p).1 = b') ∧
    (0 ≤ p → p.toNat < INF →
      ((((TuringStrip.mkStrip b data).writeAll ws).setBlankSymbol b').getSymbolAt p).1 =
        tapeValue data b p.toNat) := by
  obtain ⟨hmods, hstrip, hblank⟩ := TuringStrip.writeAll_avoid p ws
    (TuringStrip.mkStrip b data) rfl hw
  have hmods' : (((TuringStrip.mkStrip b data).writeAll ws).setBlankSymbol b').modifications p = none := hmods
  constructor
  · intro hneg
    unfold TuringStrip.getSymbolAt
    rw [hmods']
    rw [if_pos hneg]
    rfl
  · intro hpos hinf
    unfold TuringStrip.getSymbolAt
    rw [hmods']
    rw [if_neg (by omega)]
    have hstrip' : (((TuringStrip.mkStrip b data).writeAll ws).setBlankSymbol b').strip =
        ⟨[], mkTapeGen data b, INF⟩ := hstrip
    rw [hstrip']
    have hloop := matLoop_tapeNext data b (p.toNat + 1) [] (mkTapeGen data b)
      INF p.toNat 0
      ⟨rfl, rfl, rfl, Or.inl ⟨rfl, rfl, Nat.zero_le _⟩⟩
      (by intro j hj; simp at hj)
      (by simp) hinf
    have hget : LazySeq.get tapeNext (⟨[], mkTapeGen data b, INF⟩ : LazySeq α (TapeGeneratorState α)) p.toNat =
        ((matLoop tapeNext (p.toNat + 1) [] (mkTapeGen data b) INF p.toNat 0).1[p.toNat]?,
          ⟨(matLoop tapeNext (p.toNat + 1) [] (mkTapeGen data b) INF p.toNat 0).1,
            (matLoop tapeNext (p.toNat + 1) [] (mkTapeGen data b) INF p.toNat 0).2.1, INF⟩,
          (matLoop tapeNext (p.toNat + 1) [] (mkTapeGen data b) INF p.toNat 0).2.2) := by
      unfold LazySeq.get
      rfl
    rw [hget, hloop.2 p.toNat (by omega)]

/-- Witness for C10 (amended): blank `0`, seed `[5]`, one write at
position `1`, new blank `2`; a read at `-3` returns the new blank `2`,
and a read at `4` (beyond the seed) returns the construction blank `0`. -/
theorem strip_setBlank_halves_witness :
    ((-3 : Int) < 0 ∧
      ((((TuringStrip.mkStrip 0 [5]).writeAll [(1, 9)]).setBlankSymbol 2).getSymbolAt (-3)).1 = (2 : Nat)) ∧
    ((0 : Int) ≤ 4 ∧ (4 : Int).toNat < INF ∧
      ((((TuringStrip.mkStrip 0 [5]).writeAll [(1, 9)]).setBlankSymbol 2).getSymbolAt 4).1 =
        tapeValue [5] 0 (4 : Int).toNat) :=
  ⟨⟨by decide,
      (strip_setBlank_halves 0 2 [5] [(1, 9)] (-3) (by decide)).1 (by decide)⟩,
    ⟨by decide, by decide,
      (strip_setBlank_halves 0 2 [5] [(1, 9)] 4 (by decide)).2 (by decide) (by decide)⟩⟩

/-- Embeds `Direction` (TransitionManager.h lines 10-14). -/
inductive Direction where
  | LEFT
  | STAY
  | RIGHT
  deriving Repr, DecidableEq

/-- Embeds `TransitionRule<State, Symbol>` (TransitionManager.h lines 20-39). -/
structure TransitionRule (σ α : Type) where
  fromState : σ
  readSymbol : α
  toState : σ
  writeSymbol : α
  direction : Direction
  deriving Repr, DecidableEq

/-- Embeds `TransitionManager<State, Symbol>` (TransitionManager.h lines 45-117):
the `unordered_map<RuleKey, Rule>` is modeled as an association list keyed
by `(from_state, read_symbol)`; tables built through `AddRule` have
pairwise-distinct keys. -/
structure TransitionManager (σ α : Type) where
  rulesMap : List ((σ × α) × TransitionRule σ α)
  deriving Repr, DecidableEq

variable {σ : Type} [DecidableEq σ] [DecidableEq α]

/-- Embeds `TransitionManager::AddRule` (TransitionManager.h lines 72-82):
`rules_map_[key] = rule` — assign in place when the key is present,
insert otherwise. -/
def TransitionManager.addRule (tm : TransitionManager σ α)
    (rule : TransitionRule σ α) : TransitionManager σ α :=
  if tm.rulesMap.any (fun p => decide (p.1 = (rule.fromState, rule.readSymbol))) then
    ⟨tm.rulesMap.map (fun p =>
      if p.1 = (rule.fromState, rule.readSymbol) then
        ((rule.fromState, rule.readSymbol), rule)
      else p)⟩
  else
    ⟨tm.rulesMap ++ [((rule.fromState, rule.readSymbol), rule)]⟩

/-- Embeds `TransitionManager::FindRule` (TransitionManager.h lines 87-94). -/
def TransitionManager.findRule (tm : TransitionManager σ α)
    (state : σ) (symbol : α) : Option (TransitionRule σ α) :=
  match tm.rulesMap.find? (fun p => decide (p.1 = (state, symbol))) with
  | some p => some p.2
  | none => none

/-- Embeds `TransitionManager::HasRule` (TransitionManager.h lines 99-102). -/
def TransitionManager.hasRule (tm : TransitionManager σ α)
    (state : σ) (symbol : α) : Bool :=
  (tm.rulesMap.find? (fun p => decide (p.1 = (state, symbol)))).isSome

/-- Embeds `TransitionManager::GetRulesCount` (TransitionManager.h lines 114-116). -/
def TransitionManager.getRulesCount (tm : TransitionManager σ α) : Nat :=
  tm.rulesMap.length

/-- Lookup by `find?` skips a prefix on which the predicate is everywhere
false. -/
theorem find?_append_of_any_false {β : Type} (pred : β → Bool) :
    ∀ (l l' : List β), l.any pred = false →
      (l ++ l').find? pred = l'.find? pred := by
  intro l
  induction l with
  | nil => intro l' h; rfl
  | cons x rest ih =>
    intro l' h
    simp only [List.any_cons, Bool.or_eq_false_iff] at h
    rw [List.cons_append, List.find?_cons_of_neg _ (by simp [h.1]), ih l' h.2]

/-- Replacing the (present) entry keyed `key` makes it what `find?` of
`key` returns. -/
theorem find?_replace (key : σ × α) (r : TransitionRule σ α) :
    ∀ l : List ((σ × α) × TransitionRule σ α),
      l.any (fun p => decide (p.1 = key)) = true →
      (l.map (fun p => if p.1 = key then (key, r) else p)).find?
        (fun p => decide (p.1 = key)) = some (key, r) := by
  intro l
  induction l with
  | nil => intro h; simp at h
  | cons p rest ih =>
    intro h
    by_cases hp : p.1 = key
    · rw [List.map_cons, if_pos hp, List.find?_cons_of_pos _ (by simp)]
    · rw [List.map_cons, if_neg hp, List.find?_cons_of_neg _ (by simp [hp])]
      refine ih ?_
      simp only [List.any_cons, hp, decide_False, Bool.false_or] at h
      exact h

/-- Claim C7: `AddRule` with an already-present key replaces the stored
rule rather than erroring — `FindRule` afterwards returns the newly added
rule (this also holds for a fresh key), the rule count does not grow when
the key was present, and re-adding the identical rule leaves the table
unchanged (idempotent replace-by-key).  `hnd` is the invariant of every
table built through `AddRule`: the keys are pairwise distinct. -/
theorem transitionManager_addRule_replace (tm : TransitionManager σ α)
    (r : TransitionRule σ α) (hnd : (tm.rulesMap.map Prod.fst).Nodup) :
    ((tm.addRule r).findRule r.fromState r.readSymbol = some r) ∧
    (tm.hasRule r.fromState r.readSymbol = true →
      (tm.addRule r).getRulesCount = tm.getRulesCount) ∧
    (tm.findRule r.fromState r.readSymbol = some r → tm.addRule r = tm) := by
  refine ⟨?_, ?_, ?_⟩
  · unfold TransitionManager.addRule TransitionManager.findRule
    by_cases hin : tm.rulesMap.any
        (fun p => decide (p.1 = (r.fromState, r.readSymbol))) = true
    · rw [if_pos hin]
      rw [find?_replace (r.fromState, r.readSymbol) r tm.rulesMap hin]
    · rw [if_neg hin]
      have hfalse : tm.rulesMap.any
          (fun p => decide (p.1 = (r.fromState, r.readSymbol))) = false := by
        revert hin
        cases tm.rulesMap.any (fun p => decide (p.1 = (r.fromState, r.readSymbol))) <;> simp
      rw [show (⟨tm.rulesMap ++ [((r.fromState, r.readSymbol), r)]⟩ :
          TransitionManager σ α).rulesMap =
        tm.rulesMap ++ [((r.fromState, r.readSymbol), r)] from rfl]
      rw [find?_append_of_any_false _ tm.rulesMap _ hfalse]
      rw [List.find?_cons_of_pos _ (by simp)]
  · intro hhas
    have hin : tm.rulesMap.any
        (fun p => decide (p.1 = (r.fromState, r.readSymbol))) = true := by
      unfold TransitionManager.hasRule at hhas
      rw [List.any_eq_true]
      obtain ⟨p, hfind⟩ := Option.isSome_iff_exists.mp hhas
      have hmem := List.mem_of_find?_eq_some hfind
      have hps := List.find?_some hfind
      exact ⟨p, hmem, hps⟩
    unfold TransitionManager.addRule TransitionManager.getRulesCount
    rw [if_pos hin]
    exact List.length_map _ _
  · intro hfound
    unfold TransitionManager.findRule at hfound
    cases hfind : tm.rulesMap.find?
        (fun p => decide (p.1 = (r.fromState, r.readSymbol))) with
    | none => rw [hfind] at hfound; exact absurd hfound (by simp)
    | some p0 =>
      rw [hfind] at hfound
      have hp0r : p0.2 = r := by simpa using hfound
      have hp0key : p0.1 = (r.fromState, r.readSymbol) := by
        have := List.find?_some hfind
        simpa using this
      have hp0mem : p0 ∈ tm.rulesMap := List.mem_of_find?_eq_some hfind
      have hin : tm.rulesMap.any
          (fun p => decide (p.1 = (r.fromState, r.readSymbol))) = true := by
        rw [List.any_eq_true]
        exact ⟨p0, hp0mem, by simp [hp0key]⟩
      unfold TransitionManager.addRule
      rw [if_pos hin]
      have hmap : tm.rulesMap.map (fun p =>
          if p.1 = (r.fromState, r.readSymbol) then
            ((r.fromState, r.readSymbol), r)
          else p) = tm.rulesMap.map id := by
        refine List.map_congr_left ?_
        intro p hp
        by_cases hpk : p.1 = (r.fromState, r.readSymbol)
        · rw [if_pos hpk]
          have : p = p0 := List.inj_on_of_nodup_map hnd hp hp0mem
            (by rw [hpk, hp0key])
          rw [this, id_eq]
          rw [show ((r.fromState, r.readSymbol), r) = (p0.1, p0.2) by
            rw [hp0key, hp0r]]
        · rw [if_neg hpk, id_eq]
      cases tm with
      | mk l => simp only [TransitionManager.mk.injEq]; simpa using hmap

/-- Witness for C7 at a concrete two-rule table over `Nat` states and
symbols: replacing the rule for key `(0, 1)`. -/
theorem transitionManager_addRule_replace_witness :
    ((((⟨[((0, 1), ⟨0, 1, 2, 3, Direction.LEFT⟩),
          ((4, 5), ⟨4, 5, 6, 7, Direction.STAY⟩)]⟩ : TransitionManager Nat Nat).rulesMap.map
        Prod.fst).Nodup) ∧
      ((⟨[((0, 1), ⟨0, 1, 2, 3, Direction.LEFT⟩),
          ((4, 5), ⟨4, 5, 6, 7, Direction.STAY⟩)]⟩ : TransitionManager Nat Nat).addRule
        ⟨0, 1, 8, 9, Direction.RIGHT⟩).findRule 0 1 =
          some ⟨0, 1, 8, 9, Direction.RIGHT⟩) ∧
    ((⟨[((0, 1), ⟨0, 1, 2, 3, Direction.LEFT⟩),
        ((4, 5), ⟨4, 5, 6, 7, Direction.STAY⟩)]⟩ : TransitionManager Nat Nat).hasRule 0 1 = true ∧
      ((⟨[((0, 1), ⟨0, 1, 2, 3, Direction.LEFT⟩),
          ((4, 5), ⟨4, 5, 6, 7, Direction.STAY⟩)]⟩ : TransitionManager Nat Nat).addRule
        ⟨0, 1, 8, 9, Direction.RIGHT⟩).getRulesCount =
        (⟨[((0, 1), ⟨0, 1, 2, 3, Direction.LEFT⟩),
           ((4, 5), ⟨4, 5, 6, 7, Direction.STAY⟩)]⟩ : TransitionManager Nat Nat).getRulesCount) ∧
    ((⟨[((0, 1), ⟨0, 1, 2, 3, Direction.LEFT⟩),
        ((4, 5), ⟨4, 5, 6, 7, Direction.STAY⟩)]⟩ : TransitionManager Nat Nat).findRule 0 1 =
        some ⟨0, 1, 2, 3, Direction.LEFT⟩ ∧
      (⟨[((0, 1), ⟨0, 1, 2, 3, Direction.LEFT⟩),
         ((4, 5), ⟨4, 5, 6, 7, Direction.STAY⟩)]⟩ : TransitionManager Nat Nat).addRule
        ⟨0, 1, 2, 3, Direction.LEFT⟩ =
        ⟨[((0, 1), ⟨0, 1, 2, 3, Direction.LEFT⟩),
          ((4, 5), ⟨4, 5, 6, 7, Direction.STAY⟩)]⟩) :=
  ⟨⟨by decide,
      (transitionManager_addRule_replace
        ⟨[((0, 1), ⟨0, 1, 2, 3, Direction.LEFT⟩),
          ((4, 5), ⟨4, 5, 6, 7, Direction.STAY⟩)]⟩
        ⟨0, 1, 8, 9, Direction.RIGHT⟩ (by decide)).1⟩,
    ⟨by decide,
      (transitionManager_addRule_replace
        ⟨[((0, 1), ⟨0, 1, 2, 3, Direction.LEFT⟩),
          ((4, 5), ⟨4, 5, 6, 7, Direction.STAY⟩)]⟩
        ⟨0, 1, 8, 9, Direction.RIGHT⟩ (by decide)).2.1 (by decide)⟩,
    ⟨by decide,
      (transitionManager_addRule_replace
        ⟨[((0, 1), ⟨0, 1, 2, 3, Direction.LEFT⟩),
          ((4, 5), ⟨4, 5, 6, 7, Direction.STAY⟩)]⟩
        ⟨0, 1, 2, 3, Direction.LEFT⟩ (by decide)).2.2 (by decide)⟩⟩

/-- Embeds `StateManager<State>` (StateManager.h).  The `unordered_set` of final
states is modeled as a duplicate-free list (membership is the only
observable the machine uses). -/
structure StateManager (σ : Type) where
  initialState : σ
  currentState : σ
  finalStates : List σ
  deriving Repr, DecidableEq

/-- Embeds `StateManager` constructor (StateManager.h lines 17-18). -/
def mkStateManager (initialState : σ) : StateManager σ :=
  ⟨initialState, initialState, []⟩

/-- Embeds `StateManager::SetCurrentState` (StateManager.h lines 30-32). -/
def StateManager.setCurrentState (sm : StateManager σ) (s : σ) : StateManager σ :=
  { sm with currentState := s }

/-- Embeds `StateManager::AddFinalState` (StateManager.h lines 44-46):
`unordered_set::insert`. -/
def StateManager.addFinalState (sm : StateManager σ) (s : σ) : StateManager σ :=
  if s ∈ sm.finalStates then sm else { sm with finalStates := s :: sm.finalStates }

/-- Embeds `StateManager::IsInFinalState` (StateManager.h lines 58-60). -/
def StateManager.isInFinalState (sm : StateManager σ) : Bool :=
  decide (sm.currentState ∈ sm.finalStates)

/-- Embeds `StateManager::Reset` (StateManager.h lines 37-39). -/
def StateManager.reset (sm : StateManager σ) : StateManager σ :=
  { sm with currentState := sm.initialState }

/-- Embeds `HeadManager` (HeadManager.h): position, configured initial position,
and the move statistics the class maintains. -/
structure HeadManager where
  position : Int
  initialPosition : Int
  totalMoves : Nat
  leftMoves : Nat
  rightMoves : Nat
  stayMoves : Nat
  minPosition : Int
  maxPosition : Int
  deriving Repr, DecidableEq

/-- Embeds `HeadManager` constructor (HeadManager.h lines 25-33). -/
def mkHeadManager (initialPosition : Int) : HeadManager :=
  ⟨initialPosition, initialPosition, 0, 0, 0, 0, initialPosition, initialPosition⟩

/-- Embeds `HeadManager::Move` (HeadManager.h lines 45-69). -/
def HeadManager.move (hm : HeadManager) (d : Direction) : HeadManager :=
  match d with
  | Direction.LEFT =>
    { hm with
      position := hm.position - 1
      totalMoves := hm.totalMoves + 1
      leftMoves := hm.leftMoves + 1
      minPosition := if hm.position - 1 < hm.minPosition then hm.position - 1
        else hm.minPosition }
  | Direction.RIGHT =>
    { hm with
      position := hm.position + 1
      totalMoves := hm.totalMoves + 1
      rightMoves := hm.rightMoves + 1
      maxPosition := if hm.position + 1 > hm.maxPosition then hm.position + 1
        else hm.maxPosition }
  | Direction.STAY =>
    { hm with
      totalMoves := hm.totalMoves + 1
      stayMoves := hm.stayMoves + 1 }

/-- Embeds `StatisticsManager` (StatisticsManager.h).  The two
`high_resolution_clock::time_point` fields are omitted: wall-clock time
is outside the embedding, and no claim mentions it. -/
structure StatisticsManager where
  stepCount : Nat
  maxSteps : Nat
  executionStarted : Bool
  executionFinished : Bool
  deriving Repr, DecidableEq

/-- Embeds `StatisticsManager` constructor (StatisticsManager.h lines 20-24); the
default argument of `max_steps` is `100000`. -/
def mkStatisticsManager (maxSteps : Nat) : StatisticsManager :=
  ⟨0, maxSteps, false, false⟩

/-- Embeds `StatisticsManager::StartExecution` (StatisticsManager.h lines 29-34):
sets the started/finished flags and zeroes the step counter. -/
def StatisticsManager.startExecution (sm : StatisticsManager) : StatisticsManager :=
  { sm with stepCount := 0, executionStarted := true, executionFinished := false }

/-- Embeds `StatisticsManager::EndExecution` (StatisticsManager.h lines 39-42). -/
def StatisticsManager.endExecution (sm : StatisticsManager) : StatisticsManager :=
  { sm with executionFinished := true }

/-- Embeds `StatisticsManager::IncrementStepCount` (StatisticsManager.h lines 47-49). -/
def StatisticsManager.incrementStepCount (sm : StatisticsManager) : StatisticsManager :=
  { sm with stepCount := sm.stepCount + 1 }

/-- Embeds `StatisticsManager::IsStepLimitExceeded` (StatisticsManager.h lines
75-77): `step_count_ >= max_steps_`. -/
def StatisticsManager.isStepLimitExceeded (sm : StatisticsManager) : Bool :=
  decide (sm.maxSteps ≤ sm.stepCount)

/-- Embeds `StatisticsManager::SetMaxSteps` (StatisticsManager.h lines 68-70). -/
def StatisticsManager.setMaxSteps (sm : StatisticsManager) (maxSteps : Nat) :
    StatisticsManager :=
  { sm with maxSteps := maxSteps }

/-- Embeds `ExecutionResult` (MT.h lines 16-21). -/
inductive ExecutionResult where
  | ACCEPTED
  | REJECTED
  | TIMEOUT
  | ERROR
  deriving Repr, DecidableEq

/-- Embeds `TuringMachine<State, Symbol>` (MT.h lines 28-366): composition of the
five managers. -/
structure TuringMachine (σ α : Type) where
  stateManager : StateManager σ
  strip : TuringStrip α
  transitionManager : TransitionManager σ α
  headManager : HeadManager
  statisticsManager : StatisticsManager

/-- The `TuringMachine` constructor (MT.h lines 46-54): fresh managers,
default statistics (`max_steps = 100000`). -/
def mkTuringMachine (initialState : σ) (blankSymbol : α)
    (initialData : List α) (initialHeadPosition : Int) : TuringMachine σ α :=
  { stateManager := mkStateManager initialState
    strip := TuringStrip.mkStrip blankSymbol initialData
    transitionManager := ⟨[]⟩
    headManager := mkHeadManager initialHeadPosition
    statisticsManager := mkStatisticsManager 100000 }

/-- Embeds `TuringMachine::AddTransition` (MT.h lines 59-63). -/
def TuringMachine.addTransition (m : TuringMachine σ α) (fromState : σ)
    (readSymbol : α) (toState : σ) (writeSymbol : α) (direction : Direction) :
    TuringMachine σ α :=
  { m with transitionManager :=
      m.transitionManager.addRule ⟨fromState, readSymbol, toState, writeSymbol, direction⟩ }

/-- Embeds `TuringMachine::AddFinalState` (MT.h lines 68-70). -/
def TuringMachine.addFinalState (m : TuringMachine σ α) (s : σ) :
    TuringMachine σ α :=
  { m with stateManager := m.stateManager.addFinalState s }

/-- Embeds `TuringMachine::IsInFinalState` (MT.h lines 187-189). -/
def TuringMachine.isInFinalState (m : TuringMachine σ α) : Bool :=
  m.stateManager.isInFinalState

/-- Embeds `TuringMachine::SetMaxSteps` (MT.h lines 241-243). -/
def TuringMachine.setMaxSteps (m : TuringMachine σ α) (maxSteps : Nat) :
    TuringMachine σ α :=
  { m with statisticsManager := m.statisticsManager.setMaxSteps maxSteps }

/-- Embeds `TuringMachine::Step` (MT.h lines 76-102): refuse if the step limit is
reached; read the symbol under the head (which may materialize the base
tape, hence the strip update even on the no-rule path); look up a rule;
if none, halt; otherwise apply state change, write, head move, and step
count increment, in the source's order. -/
def TuringMachine.step (m : TuringMachine σ α) : Bool × TuringMachine σ α :=
  if m.statisticsManager.isStepLimitExceeded then
    (false, m)
  else
    match m.transitionManager.findRule m.stateManager.currentState
        (m.strip.getSymbolAt m.headManager.position).1 with
    | none =>
      (false, { m with strip := (m.strip.getSymbolAt m.headManager.position).2 })
    | some rule =>
      (true, { m with
        stateManager := m.stateManager.setCurrentState rule.toState
        strip := (m.strip.getSymbolAt m.headManager.position).2.setSymbolAt
          m.headManager.position rule.writeSymbol
        headManager := m.headManager.move rule.direction
        statisticsManager := m.statisticsManager.incrementStepCount })

/-- The `while (true)` loop of `TuringMachine::Run` (MT.h lines 117-135):
final-state check first, then the step-limit check, then one `Step`.
`fuel` bounds the iterations: each pass either returns or (step returning
true) increments the step counter while the counter is below the limit,
so the loop runs at most `max_steps - step_count + 1` passes — `run`
passes exactly this bound, and any larger fuel gives the same result
(the fuel-indifference theorem below), so the `fuel = 0` fallback value
is never reached from `run`. -/
def TuringMachine.runLoop : Nat → TuringMachine σ α →
    ExecutionResult × TuringMachine σ α
  | 0, m => (ExecutionResult.TIMEOUT, m)
  | fuel + 1, m =>
    if m.stateManager.isInFinalState then
      (ExecutionResult.ACCEPTED,
        { m with statisticsManager := m.statisticsManager.endExecution })
    else if m.statisticsManager.isStepLimitExceeded then
      (ExecutionResult.TIMEOUT,
        { m with statisticsManager := m.statisticsManager.endExecution })
    else
      match m.step with
      | (true, m2) => TuringMachine.runLoop fuel m2
      | (false, m2) =>
        (ExecutionResult.REJECTED,
          { m2 with statisticsManager := m2.statisticsManager.endExecution })

/-- Embeds `TuringMachine::Run(max_steps = 0)` (MT.h lines 109-140): optionally
override the limit, `StartExecution` (zeroing the step counter), then the
loop.  The `catch`-to-`ERROR` branch is dead in the embedding: no
embedded operation throws.  After `StartExecution` the step counter is
`0`, so the loop bound `max_steps - step_count + 1` is `maxSteps + 1`. -/
def TuringMachine.run (m : TuringMachine σ α) (maxStepsArg : Nat) :
    ExecutionResult × TuringMachine σ α :=
  let m1 := if 0 < maxStepsArg then m.setMaxSteps maxStepsArg else m
  let m2 := { m1 with statisticsManager := m1.statisticsManager.startExecution }
  TuringMachine.runLoop (m2.statisticsManager.maxSteps + 1) m2

/-- What one `Step` does to the statistics: the limit is untouched; a
successful step increments the counter and can only happen strictly below
the limit; a refused/halted step leaves the counter unchanged. -/
theorem TuringMachine.step_spec (m : TuringMachine σ α) :
    (m.step.2.statisticsManager.maxSteps = m.statisticsManager.maxSteps) ∧
    (m.step.1 = true →
      m.step.2.statisticsManager.stepCount = m.statisticsManager.stepCount + 1 ∧
        m.statisticsManager.stepCount < m.statisticsManager.maxSteps) ∧
    (m.step.1 = false →
      m.step.2.statisticsManager.stepCount = m.statisticsManager.stepCount) := by
  unfold TuringMachine.step
  by_cases hl : m.statisticsManager.isStepLimitExceeded = true
  · rw [if_pos hl]
    exact ⟨rfl, by simp, fun _ => rfl⟩
  · rw [if_neg hl]
    have hlt : m.statisticsManager.stepCount < m.statisticsManager.maxSteps := by
      unfold StatisticsManager.isStepLimitExceeded at hl
      simp at hl
      omega
    cases hfind : m.transitionManager.findRule m.stateManager.currentState
        (m.strip.getSymbolAt m.headManager.position).1 with
    | none => exact ⟨rfl, by simp, fun _ => rfl⟩
    | some rule => exact ⟨rfl, fun _ => ⟨rfl, hlt⟩, by simp⟩

/-- The loop's final step count never exceeds the larger of the limit and
the entry count, whatever the fuel. -/
theorem TuringMachine.runLoop_stepCount_le :
    ∀ (fuel : Nat) (m : TuringMachine σ α),
      ((TuringMachine.runLoop fuel m).2).statisticsManager.stepCount ≤
        max m.statisticsManager.maxSteps m.statisticsManager.stepCount := by
  intro fuel
  induction fuel with
  | zero => intro m; exact Nat.le_max_right _ _
  | succ fuel ih =>
    intro m
    unfold TuringMachine.runLoop
    by_cases hf : m.stateManager.isInFinalState = true
    · rw [if_pos hf]
      exact Nat.le_max_right _ _
    · rw [if_neg hf]
      by_cases hl : m.statisticsManager.isStepLimitExceeded = true
      · rw [if_pos hl]
        exact Nat.le_max_right _ _
      · rw [if_neg hl]
        rcases hs : m.step with ⟨b, m2⟩
        have hspec := TuringMachine.step_spec m
        rw [hs] at hspec
        cases b
        · show m2.statisticsManager.stepCount ≤ _
          have := hspec.2.2 rfl
          simp at this
          omega
        · show ((TuringMachine.runLoop fuel m2).2).statisticsManager.stepCount ≤ _
          have hmax := hspec.1
          have hcnt := hspec.2.1 rfl
          simp at hmax hcnt
          have := ih m2
          omega

/-- The loop's result is independent of the fuel once the fuel is at least
`max_steps - step_count + 1` (the loop's iteration bound): the loop
really terminates by its own exits. -/
theorem TuringMachine.runLoop_fuel_indep :
    ∀ (f1 f2 : Nat) (m : TuringMachine σ α),
      m.statisticsManager.maxSteps - m.statisticsManager.stepCount + 1 ≤ f1 →
      m.statisticsManager.maxSteps - m.statisticsManager.stepCount + 1 ≤ f2 →
      TuringMachine.runLoop f1 m = TuringMachine.runLoop f2 m := by
  intro f1
  induction f1 with
  | zero => intro f2 m h1 h2; exact absurd h1 (by omega)
  | succ f1 ih =>
    intro f2 m h1 h2
    obtain ⟨f2', rfl⟩ : ∃ f2', f2 = f2' + 1 := ⟨f2 - 1, by omega⟩
    show TuringMachine.runLoop (f1 + 1) m = TuringMachine.runLoop (f2' + 1) m
    unfold TuringMachine.runLoop
    by_cases hf : m.stateManager.isInFinalState = true
    · rw [if_pos hf, if_pos hf]
    · rw [if_neg hf, if_neg hf]
      by_cases hl : m.statisticsManager.isStepLimitExceeded = true
      · rw [if_pos hl, if_pos hl]
      · rw [if_neg hl, if_neg hl]
        have hlt : m.statisticsManager.stepCount < m.statisticsManager.maxSteps := by
          unfold StatisticsManager.isStepLimitExceeded at hl
          simp at hl
          omega
        rcases hs : m.step with ⟨b, m2⟩
        have hspec := TuringMachine.step_spec m
        rw [hs] at hspec
        cases b
        · rfl
        · show TuringMachine.runLoop f1 m2 = TuringMachine.runLoop f2' m2
          have hmax := hspec.1
          have hcnt := hspec.2.1 rfl
          simp at hmax hcnt
          exact ih f2' m2 (by omega) (by omega)

/-- A machine sitting in a final state that still has an applicable rule:
initial/current state `0`, final state `0`, a rule for `(0, blank 0)`. -/
def machineInFinalState : TuringMachine Nat Nat :=
  ((mkTuringMachine 0 0 [] 0).addFinalState 0).addTransition 0 0 1 1 Direction.RIGHT

/-- Claim C1 as stated fails: `Step()` does not check the final-state set
(MT.h lines 76-102 test only the step limit and the rule lookup).  On a
machine whose current state is final but which has a rule for the current
configuration and is below the step limit, `Step()` returns `true` and
mutates the machine rather than returning false unchanged — the current
state and the step counter change. -/
theorem step_in_final_state_counterexample :
    machineInFinalState.isInFinalState = true ∧
      machineInFinalState.step.1 = true ∧
      machineInFinalState.step.2.stateManager.currentState ≠
        machineInFinalState.stateManager.currentState ∧
      machineInFinalState.step.2.statisticsManager.stepCount ≠
        machineInFinalState.statisticsManager.stepCount := by
  decide

/-- Claim C1 (amended): for every machine whose step counter has reached
the step limit, `Step()` returns `false` and leaves the machine unchanged
— current state, head position, step counter, and every tape position
read the same (the machine value is returned untouched).  Being in a
final state does not by itself make `Step()` return `false`: if a rule
applies, `Step()` still executes it. -/
theorem step_at_step_limit_returns_false (m : TuringMachine σ α)
    (h : m.statisticsManager.maxSteps ≤ m.statisticsManager.stepCount) :
    m.step = (false, m) := by
  unfold TuringMachine.step
  rw [if_pos (show m.statisticsManager.isStepLimitExceeded = true from decide_eq_true h)]

/-- Witness for C1 (amended): a fresh machine whose limit is set to `0`. -/
theorem step_at_step_limit_returns_false_witness :
    ((mkTuringMachine 0 0 ([] : List Nat) 0).setMaxSteps 0).statisticsManager.maxSteps ≤
        ((mkTuringMachine 0 0 ([] : List Nat) 0).setMaxSteps 0).statisticsManager.stepCount ∧
      ((mkTuringMachine 0 0 ([] : List Nat) 0).setMaxSteps 0).step =
        (false, (mkTuringMachine 0 0 ([] : List Nat) 0).setMaxSteps 0) :=
  ⟨by decide, step_at_step_limit_returns_false _ (by decide)⟩

/-- Claim C2: each iteration of `Run`'s loop checks the final-state
condition before the step-limit condition, so from any loop state whose
current state is in the final-state set — in particular one whose step
counter has exactly reached the limit — the loop reports `ACCEPTED`, not
`TIMEOUT`. -/
theorem runLoop_final_state_has_priority (m : TuringMachine σ α) (fuel : Nat)
    (hfuel : 0 < fuel) (hfinal : m.stateManager.isInFinalState = true) :
    (TuringMachine.runLoop fuel m).1 = ExecutionResult.ACCEPTED := by
  obtain ⟨f, rfl⟩ : ∃ f, fuel = f + 1 := ⟨fuel - 1, by omega⟩
  unfold TuringMachine.runLoop
  rw [if_pos hfinal]

/-- Witness for C2: a machine in a final state whose step counter has
reached its limit (limit `0`, counter `0`) is still reported `ACCEPTED`. -/
theorem runLoop_final_state_has_priority_witness :
    (0 : Nat) < 1 ∧
      (((mkTuringMachine 0 0 ([] : List Nat) 0).addFinalState 0).setMaxSteps
        0).stateManager.isInFinalState = true ∧
      (((mkTuringMachine 0 0 ([] : List Nat) 0).addFinalState 0).setMaxSteps
        0).statisticsManager.isStepLimitExceeded = true ∧
      (TuringMachine.runLoop 1
        (((mkTuringMachine 0 0 ([] : List Nat) 0).addFinalState 0).setMaxSteps 0)).1 =
        ExecutionResult.ACCEPTED :=
  ⟨by decide, by decide, by decide,
    runLoop_final_state_has_priority _ 1 (by decide) (by decide)⟩

/-- Claim C6: `Run` always terminates.  (1) The step limit has the finite
default `100000` when never configured (the `StatisticsManager` built by
the machine constructor).  (2) The run loop returns through one of its own
exits within its `max_steps - step_count + 1` iteration bound: any fuel
beyond the bound is unused, for every machine and hence every rule set,
including ones encoding infinite loops.  (3) A full `Run` performs at most
step-limit many step applications: the final step counter is bounded by
the effective limit. -/
theorem turingMachine_run_terminates :
    (∀ (i0 : σ) (b : α) (d : List α) (p : Int),
      (mkTuringMachine i0 b d p).statisticsManager.maxSteps = 100000) ∧
    (∀ (m : TuringMachine σ α) (extra : Nat),
      TuringMachine.runLoop
        (m.statisticsManager.maxSteps - m.statisticsManager.stepCount + 1 + extra) m =
      TuringMachine.runLoop
        (m.statisticsManager.maxSteps - m.statisticsManager.stepCount + 1) m) ∧
    (∀ (m : TuringMachine σ α) (k : Nat),
      ((m.run k).2).statisticsManager.stepCount ≤
        if 0 < k then k else m.statisticsManager.maxSteps) := by
  refine ⟨fun i0 b d p => rfl, ?_, ?_⟩
  · intro m extra
    exact TuringMachine.runLoop_fuel_indep _ _ m (by omega) (by omega)
  · intro m k
    obtain ⟨sm, st, tm, hm, stats⟩ := m
    obtain ⟨sc, ms, es, ef⟩ := stats
    by_cases hk : 0 < k
    · simp only [TuringMachine.run, TuringMachine.setMaxSteps,
        StatisticsManager.setMaxSteps, StatisticsManager.startExecution, if_pos hk]
      have H := TuringMachine.runLoop_stepCount_le (k + 1)
        ⟨sm, st, tm, hm, ⟨0, k, true, false⟩⟩
      simpa using H
    · simp only [TuringMachine.run, StatisticsManager.startExecution, if_neg hk]
      have H := TuringMachine.runLoop_stepCount_le (ms + 1)
        ⟨sm, st, tm, hm, ⟨0, ms, true, false⟩⟩
      simpa using H

/-- The machine with its step counter overridden (the state left behind by
earlier manual `Step()` calls). -/
def TuringMachine.withStepCount (m : TuringMachine σ α) (c : Nat) :
    TuringMachine σ α :=
  { m with statisticsManager := { m.statisticsManager with stepCount := c } }

/-- Claim C9: `Run` resets the step counter to zero on entry (via
`StartExecution`, whose counter-zeroing is the first conjunct) before any
stepping, so the run's outcome and final statistics are independent of
whatever counter earlier manual `Step()` calls accumulated — in
particular a machine manually stepped up to its step limit
(`c = maxSteps`) still executes a fresh full run, and the final
`GetStepCount` counts only this run's transitions. -/
theorem run_discards_prior_step_count :
    (∀ sm : StatisticsManager, sm.startExecution.stepCount = 0) ∧
    (∀ (m : TuringMachine σ α) (c k : Nat),
      (m.withStepCount c).run k = m.run k) := by
  refine ⟨fun sm => rfl, ?_⟩
  intro m c k
  obtain ⟨sm, st, tm, hm, stats⟩ := m
  obtain ⟨sc, ms, es, ef⟩ := stats
  by_cases hk : 0 < k <;>
    simp [TuringMachine.run, TuringMachine.withStepCount, TuringMachine.setMaxSteps,
      StatisticsManager.setMaxSteps, StatisticsManager.startExecution, hk]

end MachineTuring
